import Mathlib

/-!
Verification of the text-processing core of the `fastapi-new` scaffolding CLI.

The Lean definitions below are shallow embeddings of the Python functions in
`src/fastapi_new/utils/templates.py`, `src/fastapi_new/createapp.py` and
`src/fastapi_new/adddb.py`.  Text is modelled as `List Char` (Python `str`),
Python regular-expression scans are modelled as executable left-to-right
scanners (the patterns involved match deterministically, so backtracking
never changes the outcome), and Python operations that can raise
(out-of-range indexing) return `Option`.
-/

namespace FastapiNew

/-- Python whitespace characters, as used by `str.strip` and the regex class
backslash-s (space, tab, newline, carriage return, vertical tab, form feed). -/
def pyws (c : Char) : Bool :=
  c = ' ' || c = '\t' || c = '\n' || c = '\r' || c = Char.ofNat 11 || c = Char.ofNat 12

/-- A regex word character (backslash-w, restricted to ASCII): letter, digit
or underscore. -/
def wordChar (c : Char) : Bool := c.isAlphanum || c = '_'

/-- `begMatch pat l` holds when `pat` is a prefix of `l` (pattern match
anchored at the current scan position). -/
def begMatch : List Char → List Char → Bool
  | [], _ => true
  | _ :: _, [] => false
  | p :: ps, t :: ts => p = t && begMatch ps ts

/-- `occurs pat l` holds when `pat` appears as a contiguous substring of `l`
(Python `pat in l`). -/
def occurs (pat : List Char) : List Char → Bool
  | [] => false
  | c :: rest => begMatch pat (c :: rest) || occurs pat rest

/-- Number of positions of `l` at which `pat` begins (Python `l.count(pat)`
for patterns that cannot overlap themselves). -/
def countSub (pat : List Char) : List Char → Nat
  | [] => 0
  | c :: rest => (if begMatch pat (c :: rest) then 1 else 0) + countSub pat rest

theorem takeWhile_app {p : Char → Bool} :
    ∀ {u : List Char}, (∀ c ∈ u, p c = true) → ∀ {d : Char} (v : List Char),
      p d = false → ((u ++ d :: v).takeWhile p = u ∧ (u ++ d :: v).dropWhile p = d :: v) := by
  intro u
  induction u with
  | nil =>
    intro _ d v hd
    simp [List.takeWhile, List.dropWhile, hd]
  | cons c u ih =>
    intro h d v hd
    have hc : p c = true := h c (by simp)
    have := ih (fun x hx => h x (by simp [hx])) v hd
    simp [List.takeWhile, List.dropWhile, hc, this.1, this.2]

/- ### The template renderer (`render_template` in utils/templates.py)

`render_template` performs a regex substitution on the pattern
"open-brace open-brace (word+) close-brace close-brace": each match is
replaced by `str(context[name])` when the captured identifier is a key of
the context, and by the whole match unchanged otherwise.  Since a closing
brace is not a word character, the regex engine matches the pattern
deterministically (the greedy word-run can never backtrack), which the
scanner below mirrors. -/

/-- The literal text of a placeholder with identifier `id`:
open-brace, open-brace, `id`, close-brace, close-brace. -/
def phText (id : List Char) : List Char :=
  '{' :: '{' :: (id ++ ['}', '}'])

/-- Try to match the placeholder pattern at the head of `l`.  On success
returns the captured identifier and the remainder of the input after the
closing braces. -/
def tryPh : List Char → Option (List Char × List Char)
  | c1 :: c2 :: rest =>
    if c1 = '{' && c2 = '{' then
      match rest.dropWhile wordChar with
      | d1 :: d2 :: rest2 =>
        if d1 = '}' && d2 = '}' && !(rest.takeWhile wordChar).isEmpty then
          some (rest.takeWhile wordChar, rest2)
        else none
      | _ => none
    else none
  | _ => none

/-- The replacement for a matched placeholder: the context value when the
identifier is a key, the original matched text otherwise. -/
def subst (ctx : List Char → Option (List Char)) (id : List Char) : List Char :=
  match ctx id with
  | some v => v
  | none => phText id

/-- Fuel-indexed renderer: scan left to right, replace each placeholder
match, and continue after the match (Python `re.sub` semantics). -/
def renderF (ctx : List Char → Option (List Char)) : Nat → List Char → List Char
  | _, [] => []
  | 0, l => l
  | fuel + 1, c :: rest =>
    match tryPh (c :: rest) with
    | some (id, r) => subst ctx id ++ renderF ctx fuel r
    | none => c :: renderF ctx fuel rest

/-- `render ctx content` : the embedding of `render_template(content, ctx)`.
The context is modelled as a partial map to the string representations of
its values. -/
def render (ctx : List Char → Option (List Char)) (l : List Char) : List Char :=
  renderF ctx l.length l

/-- Does a placeholder match start anywhere in `l`? -/
def hasPh : List Char → Bool
  | [] => false
  | c :: rest => (tryPh (c :: rest)).isSome || hasPh rest

theorem dropWhile_len (p : Char → Bool) : ∀ l : List Char, (l.dropWhile p).length ≤ l.length := by
  intro l
  induction l with
  | nil => simp [List.dropWhile]
  | cons c rest ih =>
    by_cases hc : p c = true
    · simp only [List.dropWhile, hc]
      exact Nat.le_succ_of_le ih
    · simp only [List.dropWhile, Bool.not_eq_true] at hc ⊢
      rw [hc]

theorem tryPh_length : ∀ {l : List Char} {id r}, tryPh l = some (id, r) → r.length + 4 ≤ l.length := by
  intro l id r h
  unfold tryPh at h
  split at h
  next c1 c2 rest =>
    split at h
    · split at h
      next d1 d2 rest2 heq =>
        split at h
        · simp only [Option.some.injEq, Prod.mk.injEq] at h
          obtain ⟨hid, hr⟩ := h
          subst hr
          have h1 : (rest.dropWhile wordChar).length ≤ rest.length := dropWhile_len wordChar rest
          rw [heq] at h1
          simp only [List.length_cons] at h1 ⊢
          omega
        · simp at h
      next => simp at h
    · simp at h
  next => simp at h

theorem tryPh_none_of_head {c : Char} (rest : List Char) (h : c ≠ '{') :
    tryPh (c :: rest) = none := by
  match rest with
  | [] => rfl
  | c2 :: rest' => simp [tryPh, h]

theorem tryPh_phText {id : List Char} (hne : id ≠ [])
    (hw : ∀ c ∈ id, wordChar c = true) (l : List Char) :
    tryPh (phText id ++ l) = some (id, l) := by
  have hbr : wordChar '}' = false := by decide
  have hsplit := takeWhile_app (p := wordChar) hw ('}' :: l) hbr
  have harr : phText id ++ l = '{' :: '{' :: (id ++ '}' :: '}' :: l) := by
    simp [phText]
  rw [harr]
  simp [tryPh, hsplit.1, hsplit.2, hne]

theorem renderF_cons (ctx : List Char → Option (List Char)) (fuel : Nat) (c : Char)
    (rest : List Char) :
    renderF ctx (fuel + 1) (c :: rest) =
      match tryPh (c :: rest) with
      | some (id, r) => subst ctx id ++ renderF ctx fuel r
      | none => c :: renderF ctx fuel rest := rfl

theorem renderF_some {c : Char} {rest id r : List Char}
    (ctx : List Char → Option (List Char)) (fuel : Nat)
    (htry : tryPh (c :: rest) = some (id, r)) :
    renderF ctx (fuel + 1) (c :: rest) = subst ctx id ++ renderF ctx fuel r := by
  rw [renderF_cons, htry]

theorem renderF_nomatch {c : Char} {rest : List Char}
    (ctx : List Char → Option (List Char)) (fuel : Nat)
    (htry : tryPh (c :: rest) = none) :
    renderF ctx (fuel + 1) (c :: rest) = c :: renderF ctx fuel rest := by
  rw [renderF_cons, htry]

theorem renderF_irrel (ctx : List Char → Option (List Char)) :
    ∀ (n : Nat) {m : Nat} (l : List Char), l.length ≤ n → l.length ≤ m →
      renderF ctx n l = renderF ctx m l := by
  intro n
  induction n with
  | zero =>
    intro m l hn _
    have : l = [] := List.eq_nil_of_length_eq_zero (Nat.le_zero.mp hn)
    subst this
    cases m <;> rfl
  | succ k ih =>
    intro m l hn hm
    match l with
    | [] => cases m <;> rfl
    | c :: rest =>
      match m with
      | 0 => exact absurd hm (by simp)
      | m' + 1 =>
        cases htry : tryPh (c :: rest) with
        | some p =>
          obtain ⟨id, r⟩ := p
          have hr := tryPh_length htry
          simp only [List.length_cons] at hn hm hr
          rw [renderF_some ctx k htry, renderF_some ctx m' htry,
            ih (m := m') r (by omega) (by omega)]
        | none =>
          simp only [List.length_cons] at hn hm
          rw [renderF_nomatch ctx k htry, renderF_nomatch ctx m' htry,
            ih (m := m') rest (by omega) (by omega)]

theorem render_nomatch {c : Char} {rest : List Char}
    (ctx : List Char → Option (List Char)) (h : tryPh (c :: rest) = none) :
    render ctx (c :: rest) = c :: render ctx rest := by
  show renderF ctx (rest.length + 1) (c :: rest) = c :: renderF ctx rest.length rest
  rw [renderF_nomatch ctx rest.length h]

theorem render_ph {l : List Char} {id r : List Char}
    (ctx : List Char → Option (List Char)) (h : tryPh l = some (id, r)) :
    render ctx l = subst ctx id ++ render ctx r := by
  have hlen := tryPh_length h
  match l with
  | [] => simp [tryPh] at h
  | c :: rest =>
    show renderF ctx (rest.length + 1) (c :: rest) = _
    simp only [List.length_cons] at hlen
    rw [renderF_some ctx rest.length h,
      renderF_irrel ctx rest.length (m := r.length) r (by omega) (by omega)]
    rfl

/- ### A token view of template content

`Tok.lit s` is a run of literal characters containing no opening brace, and
`Tok.ph id` is a placeholder occurrence.  Flattening a well-formed token
list produces template content whose placeholder occurrences are exactly
the `ph` tokens, which lets the per-occurrence behaviour of the renderer be
stated compositionally. -/

inductive Tok where
  | lit : List Char → Tok
  | ph : List Char → Tok
deriving DecidableEq

def Tok.flat : Tok → List Char
  | .lit s => s
  | .ph id => phText id

/-- Well-formedness: literal runs contain no opening brace; placeholder
identifiers are nonempty runs of word characters. -/
def Tok.wfB : Tok → Bool
  | .lit s => s.all (fun c => !(c = '{'))
  | .ph id => !id.isEmpty && id.all wordChar

def flatten : List Tok → List Char
  | [] => []
  | t :: ts => t.flat ++ flatten ts

/-- The action of one rendering pass on a single token: a literal stays, a
placeholder becomes its context value when the identifier is a key and
stays a placeholder otherwise. -/
def substTok (ctx : List Char → Option (List Char)) : Tok → Tok
  | .lit s => .lit s
  | .ph id =>
    match ctx id with
    | some v => .lit v
    | none => .ph id

theorem render_app_lit (ctx : List Char → Option (List Char)) :
    ∀ {s : List Char}, (∀ c ∈ s, c ≠ '{') → ∀ (l : List Char),
      render ctx (s ++ l) = s ++ render ctx l := by
  intro s
  induction s with
  | nil => intro _ l; rfl
  | cons c s ih =>
    intro h l
    have hc : c ≠ '{' := h c (by simp)
    have hnone := tryPh_none_of_head (s ++ l) hc
    calc render ctx (c :: (s ++ l)) = c :: render ctx (s ++ l) := render_nomatch ctx hnone
    _ = c :: (s ++ render ctx l) := by rw [ih (fun x hx => h x (by simp [hx])) l]
    _ = (c :: s) ++ render ctx l := rfl

theorem render_app_ph (ctx : List Char → Option (List Char)) {id : List Char}
    (hne : id ≠ []) (hw : ∀ c ∈ id, wordChar c = true) (l : List Char) :
    render ctx (phText id ++ l) = subst ctx id ++ render ctx l :=
  render_ph ctx (tryPh_phText hne hw l)

theorem wfB_lit {s : List Char} (h : Tok.wfB (.lit s) = true) : ∀ c ∈ s, c ≠ '{' := by
  intro c hc
  simp only [Tok.wfB, List.all_eq_true] at h
  have := h c hc
  simpa using this

theorem wfB_ph {id : List Char} (h : Tok.wfB (.ph id) = true) :
    id ≠ [] ∧ ∀ c ∈ id, wordChar c = true := by
  simp only [Tok.wfB, Bool.and_eq_true, Bool.not_eq_true', List.all_eq_true] at h
  obtain ⟨h1, h2⟩ := h
  refine ⟨?_, h2⟩
  intro hnil
  subst hnil
  simp [List.isEmpty] at h1

theorem substTok_ph_some {ctx : List Char → Option (List Char)} {id v : List Char}
    (h : ctx id = some v) : substTok ctx (.ph id) = .lit v := by
  show (match ctx id with | some v => Tok.lit v | none => Tok.ph id) = Tok.lit v
  rw [h]

theorem substTok_ph_none {ctx : List Char → Option (List Char)} {id : List Char}
    (h : ctx id = none) : substTok ctx (.ph id) = .ph id := by
  show (match ctx id with | some v => Tok.lit v | none => Tok.ph id) = Tok.ph id
  rw [h]

theorem subst_some {ctx : List Char → Option (List Char)} {id v : List Char}
    (h : ctx id = some v) : subst ctx id = v := by
  show (match ctx id with | some v => v | none => phText id) = v
  rw [h]

theorem subst_none {ctx : List Char → Option (List Char)} {id : List Char}
    (h : ctx id = none) : subst ctx id = phText id := by
  show (match ctx id with | some v => v | none => phText id) = phText id
  rw [h]

theorem substTok_flat (ctx : List Char → Option (List Char)) (id : List Char) :
    (substTok ctx (.ph id)).flat = subst ctx id := by
  cases hctx : ctx id with
  | some v => rw [substTok_ph_some hctx, subst_some hctx]; rfl
  | none => rw [substTok_ph_none hctx, subst_none hctx]; rfl

/-- One rendering pass over well-formed token content substitutes each token
independently. -/
theorem render_flatten (ctx : List Char → Option (List Char)) :
    ∀ (ts : List Tok), (∀ t ∈ ts, t.wfB = true) →
      render ctx (flatten ts) = flatten (ts.map (substTok ctx)) := by
  intro ts
  induction ts with
  | nil => intro _; rfl
  | cons t ts ih =>
    intro h
    have ht : t.wfB = true := h t (by simp)
    have hts : ∀ t ∈ ts, t.wfB = true := fun x hx => h x (by simp [hx])
    match t with
    | .lit s =>
      show render ctx (s ++ flatten ts) = s ++ flatten (ts.map (substTok ctx))
      rw [render_app_lit ctx (wfB_lit ht) (flatten ts), ih hts]
    | .ph id =>
      obtain ⟨hne, hw⟩ := wfB_ph ht
      show render ctx (phText id ++ flatten ts) = _
      rw [render_app_ph ctx hne hw (flatten ts), ih hts]
      show _ = (substTok ctx (.ph id)).flat ++ flatten (ts.map (substTok ctx))
      rw [substTok_flat]

theorem render_no_placeholder (ctx : List Char → Option (List Char)) :
    ∀ (l : List Char), hasPh l = false → render ctx l = l := by
  intro l
  induction l with
  | nil => intro _; rfl
  | cons c rest ih =>
    intro h
    simp only [hasPh, Bool.or_eq_false_iff] at h
    obtain ⟨h1, h2⟩ := h
    cases htry : tryPh (c :: rest) with
    | some p => rw [htry] at h1; simp at h1
    | none => rw [render_nomatch ctx htry, ih h2]

/-- C1.  For every content string and context, `render_template` substitutes
each non-overlapping placeholder occurrence whose identifier is a key of the
context by the value's string representation, each occurrence independently,
leaves unknown placeholders verbatim (braces included), returns content
without placeholders unchanged, and maps empty content to empty output.
Stated over the token view: the first conjunct handles substitution,
independence of occurrences and verbatim unknown placeholders; the second
conjunct is the general no-placeholder case; the third is empty content. -/
theorem render_spec (ctx : List Char → Option (List Char)) :
    (∀ ts : List Tok, (∀ t ∈ ts, t.wfB = true) →
        render ctx (flatten ts) = flatten (ts.map (substTok ctx)))
    ∧ (∀ l : List Char, hasPh l = false → render ctx l = l)
    ∧ render ctx [] = [] :=
  ⟨render_flatten ctx, render_no_placeholder ctx, rfl⟩

/-- Concrete rendering context: name maps to Bob, everything else absent. -/
def ctxBob : List Char → Option (List Char) :=
  fun id => if id = "name".data then some "Bob".data else none

/-- Concrete token view of the template "Hello (name), id (id)" from the spec. -/
def toksHello : List Tok :=
  [.lit "Hello ".data, .ph "name".data, .lit ", id ".data, .ph "id".data]

/-- C1 witness: rendering the spec's example template with a context binding
only name yields the substituted greeting with the unknown id placeholder
left verbatim. -/
theorem render_spec_witness :
    render ctxBob (flatten toksHello) = "Hello Bob, id ".data ++ phText "id".data := by
  have h := (render_spec ctxBob).1 toksHello (by decide)
  rw [h]
  decide

theorem substTok_idem (ctx : List Char → Option (List Char)) (t : Tok) :
    substTok ctx (substTok ctx t) = substTok ctx t := by
  match t with
  | .lit s => rfl
  | .ph id =>
    cases hctx : ctx id with
    | some v => rw [substTok_ph_some hctx]; rfl
    | none => rw [substTok_ph_none hctx, substTok_ph_none hctx]

theorem substTok_wf {ctx : List Char → Option (List Char)}
    (hv : ∀ id v, ctx id = some v → ∀ c ∈ v, c ≠ '{') {t : Tok}
    (h : t.wfB = true) : (substTok ctx t).wfB = true := by
  match t with
  | .lit s => exact h
  | .ph id =>
    cases hctx : ctx id with
    | some v =>
      rw [substTok_ph_some hctx]
      simp only [Tok.wfB, List.all_eq_true]
      intro c hc
      simpa using hv id v hctx c hc
    | none => rw [substTok_ph_none hctx]; exact h

theorem map_substTok_idem (ctx : List Char → Option (List Char)) :
    ∀ ts : List Tok, (ts.map (substTok ctx)).map (substTok ctx) = ts.map (substTok ctx) := by
  intro ts
  induction ts with
  | nil => rfl
  | cons t ts ih =>
    simp only [List.map_cons, substTok_idem, ih]

/-- C9 (amended).  A second rendering pass is the identity on the output of a
first pass, for content in token form (literal runs free of opening braces)
and contexts whose values contain no opening brace.  For arbitrary content
the property fails: substitution can delete a placeholder and thereby join
surrounding brace characters into a fresh placeholder (see the
counterexample). -/
theorem render_idem (ctx : List Char → Option (List Char)) (ts : List Tok)
    (hts : ∀ t ∈ ts, t.wfB = true)
    (hv : ∀ id v, ctx id = some v → ∀ c ∈ v, c ≠ '{') :
    render ctx (render ctx (flatten ts)) = render ctx (flatten ts) := by
  rw [render_flatten ctx ts hts]
  have hts2 : ∀ t ∈ ts.map (substTok ctx), t.wfB = true := by
    intro t ht
    obtain ⟨u, hu, rfl⟩ := List.mem_map.mp ht
    exact substTok_wf hv (hts u hu)
  rw [render_flatten ctx (ts.map (substTok ctx)) hts2, map_substTok_idem]

/-- Context used by the idempotence counterexample: identifier a maps to the
empty string, identifier b maps to z; both values are free of any
placeholder syntax. -/
def ctxAB : List Char → Option (List Char) :=
  fun id => if id = ['a'] then some [] else if id = ['b'] then some ['z'] else none

/-- The content open open open open a close close b close close: substituting
a by the empty string joins the leading braces with the following text into
a fresh placeholder around b. -/
def trickyContent : List Char :=
  ['{', '{', '{', '{', 'a', '}', '}', 'b', '}', '}']

/-- C9 counterexample: a context whose values (empty and z) contain no
placeholder syntax at all, and a content on which a second rendering pass
changes the output of the first, refuting the claim as stated. -/
theorem render_idem_counterexample :
    hasPh [] = false ∧ hasPh ['z'] = false ∧
      render ctxAB (render ctxAB trickyContent) ≠ render ctxAB trickyContent := by
  decide

/-- C9 witness: the amended idempotence theorem applied to the concrete
greeting template and the Bob context. -/
theorem render_idem_witness :
    render ctxBob (render ctxBob (flatten toksHello)) = render ctxBob (flatten toksHello) := by
  apply render_idem ctxBob toksHello (by decide)
  intro id v h c hc
  unfold ctxBob at h
  split at h
  · cases h
    have hall : ∀ x ∈ "Bob".data, x ≠ '{' := by decide
    exact hall c hc
  · exact Option.noConfusion h

/- ### Inflection utilities (`to_singular`, `to_plural` in utils/templates.py)

Python raises `IndexError` on out-of-range negative indexing; the embeddings
therefore return `Option`, with `none` marking the raised exception.
`l.take (l.length - n)` is Python `text[:-n]` and `l.get? (l.length - n)` is
`text[-n]` (guarded by an explicit length test, since Python raises exactly
when the length is below `n`). -/

/-- Python `text.endswith(suffix)`. -/
def endsWith (suf l : List Char) : Bool := begMatch suf.reverse l.reverse

/-- The condition `text.endswith("es") and text[-3] in "sxz"`; `none` when
evaluating `text[-3]` raises `IndexError`. -/
def esCond (t : List Char) : Option Bool :=
  if endsWith ['e', 's'] t then
    if 3 ≤ t.length then
      match t.get? (t.length - 3) with
      | some c => some (c = 's' || c = 'x' || c = 'z')
      | none => some false
    else none
  else some false

/-- Embedding of `to_singular`. -/
def to_singular (t : List Char) : Option (List Char) :=
  if endsWith ['i', 'e', 's'] t then some (t.take (t.length - 3) ++ ['y'])
  else
    match esCond t with
    | none => none
    | some true => some (t.take (t.length - 2))
    | some false =>
      if endsWith ['s'] t && !(endsWith ['s', 's'] t) then some (t.take (t.length - 1))
      else some t

/-- The condition `text.endswith("y") and text[-2] not in "aeiou"`; `none`
when evaluating `text[-2]` raises `IndexError`. -/
def yCond (t : List Char) : Option Bool :=
  if endsWith ['y'] t then
    if 2 ≤ t.length then
      match t.get? (t.length - 2) with
      | some c => some (!(c = 'a' || c = 'e' || c = 'i' || c = 'o' || c = 'u'))
      | none => some false
    else none
  else some false

/-- Embedding of `to_plural`. -/
def to_plural (t : List Char) : Option (List Char) :=
  match yCond t with
  | none => none
  | some true => some (t.take (t.length - 1) ++ ['i', 'e', 's'])
  | some false =>
    if endsWith ['s'] t || endsWith ['x'] t || endsWith ['z'] t ||
        endsWith ['c', 'h'] t || endsWith ['s', 'h'] t then some (t ++ ['e', 's'])
    else some (t ++ ['s'])

/-- C3.  The claim states the inflection utilities are total and never fail,
in particular on inputs ending in es or y that are too short to have a
character before the suffix.  The code contradicts this: `to_singular("es")`
evaluates `text[-3]` on a two-character string and `to_plural("y")`
evaluates `text[-2]` on a one-character string, both raising `IndexError`
(modelled as `none`).  Regular inputs still succeed, as the last two
conjuncts record. -/
theorem inflection_not_total :
    to_singular "es".data = none ∧ to_plural "y".data = none ∧
      to_singular "categories".data = some "category".data ∧
      to_plural "box".data = some "boxes".data := by
  decide

/-- C4.  The claim (and the repository's own test) state that `to_plural` on
the empty string returns the empty string; the code instead falls through to
the default branch and returns the single character s. -/
theorem to_plural_empty :
    to_plural [] = some ['s'] := by
  decide

/- ### Template tree expansion (`copy_template_directory` in utils/templates.py)

The function iterates `template_dir.rglob("*.tpl")` and, for each yielded
path, writes the rendered file and appends the destination path to
`created_files`.  `Path.rglob` yields entries in filesystem enumeration
order (`os.scandir` order) and applies no sorting, so the traversal order is
modelled as an input `listing`. -/

/-- The destination path of one template file: `destination / dest_relative`
where `dest_relative` is `str(relative_path)[:-4]` (the four-character
template marker stripped). -/
def destPath (destination relPath : List Char) : List Char :=
  destination ++ '/' :: relPath.take (relPath.length - 4)

/-- The accumulation loop of `copy_template_directory`: one created
destination path is appended per processed template file. -/
def copyLoop (destination : List Char) : List (List Char) → List (List Char) → List (List Char)
  | [], created => created
  | p :: rest, created => copyLoop destination rest (created ++ [destPath destination p])

/-- Embedding of `copy_template_directory`: `listing` is the sequence of
template relative paths in the order the filesystem yields them. -/
def copy_template_directory (destination : List Char) (listing : List (List Char)) :
    List (List Char) :=
  copyLoop destination listing []

theorem copyLoop_acc (destination : List Char) :
    ∀ (listing acc : List (List Char)),
      copyLoop destination listing acc = acc ++ listing.map (destPath destination) := by
  intro listing
  induction listing with
  | nil => intro acc; simp [copyLoop]
  | cons p rest ih =>
    intro acc
    rw [copyLoop, ih (acc ++ [destPath destination p])]
    simp

/-- C5 (amended).  `copy_template_directory` applies no sort: it processes
the template files exactly in the order the filesystem enumeration yields
them and returns the created destination paths in exactly that processing
order (the i-th created path is the stripped, destination-prefixed i-th
listed template). -/
theorem copy_template_directory_order (destination : List Char)
    (listing : List (List Char)) :
    copy_template_directory destination listing = listing.map (destPath destination) :=
  copyLoop_acc destination listing []

/-- C5 counterexample: two filesystem enumeration orders of the same two
template files produce differently ordered results, and the non-lexicographic
listing is returned in listing order, not lexicographic order — refuting the
claim that the result order is lexicographic and independent of the
filesystem order. -/
theorem copy_template_directory_order_counterexample :
    copy_template_directory "dest".data ["b.tpl".data, "a.tpl".data] =
        ["dest/b".data, "dest/a".data] ∧
      copy_template_directory "dest".data ["b.tpl".data, "a.tpl".data] ≠
        copy_template_directory "dest".data ["a.tpl".data, "b.tpl".data] := by
  decide

/- ### The registry patcher (`add_to_installed_apps` in createapp.py)

The function first checks whether the single- or double-quoted entry occurs
anywhere in the file content (returning True without modification if so),
then performs `re.subn` with the DOTALL pattern
"INSTALLED_APPS ws* : ws* list[str] ws* = ws* [ (lazy anything) ]":
the lazy group extends to the first closing bracket, and the whitespace
runs match maximally (no other alternative can succeed, so the regex is
deterministic); the replacement function re-emits the matched opening
(group 1), the stripped body with the new quoted element appended per the
body shape, a newline and the closing bracket.  The scanners below mirror
this behaviour; file writes are modelled by returning the new text. -/

/-- Python `text.lstrip()`. -/
def lstrip (l : List Char) : List Char := l.dropWhile pyws

/-- Python `text.rstrip()`. -/
def rstrip (l : List Char) : List Char := (l.reverse.dropWhile pyws).reverse

/-- Python `text.strip()`. -/
def pstrip (l : List Char) : List Char := rstrip (lstrip l)

/-- Consume an exact literal at the head of the input. -/
def eatLit : List Char → List Char → Option (List Char)
  | [], l => some l
  | _ :: _, [] => none
  | p :: ps, c :: cs => if p = c then eatLit ps cs else none

def litIA : List Char := "INSTALLED_APPS".data

def litLS : List Char := "list[str]".data

/-- The canonical matched opening of the pattern with single spaces, as it
appears in generated registry files (group 1 of the regex). -/
def canonIA : List Char := "INSTALLED_APPS: list[str] = [".data

/-- Match the regex `INSTALLED_APPS \s*:\s* list[str] \s*=\s* [ (.*?) ]` at
the head of the input (DOTALL, lazy group up to the first closing bracket).
On success returns group 1 (everything through the opening bracket), the
body (group 2) and the input after the closing bracket. -/
def matchInstalled (l : List Char) : Option (List Char × List Char × List Char) :=
  match eatLit litIA l with
  | none => none
  | some r1 =>
    let w1 := r1.takeWhile pyws
    match r1.dropWhile pyws with
    | [] => none
    | c1 :: r3 =>
      if c1 = ':' then
        let w2 := r3.takeWhile pyws
        match eatLit litLS (r3.dropWhile pyws) with
        | none => none
        | some r5 =>
          let w3 := r5.takeWhile pyws
          match r5.dropWhile pyws with
          | [] => none
          | c2 :: r7 =>
            if c2 = '=' then
              let w4 := r7.takeWhile pyws
              match r7.dropWhile pyws with
              | [] => none
              | c3 :: r9 =>
                if c3 = '[' then
                  match r9.dropWhile (fun c => !(c = ']')) with
                  | [] => none
                  | _ :: after =>
                    some (litIA ++ w1 ++ ':' :: w2 ++ litLS ++ w3 ++ '=' :: w4 ++ ['['],
                      r9.takeWhile (fun c => !(c = ']')), after)
                else none
            else none
      else none

/-- The new list element inserted by the replacer: four spaces, the
double-quoted app name, a trailing comma. -/
def indentQ (app : List Char) : List Char := "    ".data ++ '"' :: (app ++ '"' :: [','])

/-- The replacer's `new_content`, computed from the stripped body. -/
def newContentOf (existing app : List Char) : List Char :=
  if !existing.isEmpty && !(endsWith [','] existing) then
    if endsWith ['#'] (rstrip existing) || endsWith [','] (rstrip existing) then
      existing ++ '\n' :: indentQ app
    else
      existing ++ ',' :: '\n' :: indentQ app
  else if !existing.isEmpty then
    existing ++ '\n' :: indentQ app
  else
    '\n' :: (indentQ app ++ ['\n'])

/-- The full replacement emitted for one match:
`prefix + new_content + newline + closing bracket`. -/
def replOf (pre body app : List Char) : List Char :=
  pre ++ (newContentOf (pstrip body) app ++ '\n' :: [']'])

/-- Fuel-indexed `re.subn`: scan left to right, emit the replacement at each
match and continue after it, counting matches. -/
def subnF (app : List Char) : Nat → List Char → List Char × Nat
  | _, [] => ([], 0)
  | 0, l => (l, 0)
  | fuel + 1, c :: rest =>
    match matchInstalled (c :: rest) with
    | some (pre, body, after) =>
      match subnF app fuel after with
      | (t, n) => (replOf pre body app ++ t, n + 1)
    | none =>
      match subnF app fuel rest with
      | (t, n) => (c :: t, n)

/-- The `re.subn` of `add_to_installed_apps`: new text and match count. -/
def subnInst (app l : List Char) : List Char × Nat := subnF app l.length l

/-- The single-quote character. -/
def sq : Char := Char.ofNat 39

/-- The double-quoted entry, `"app"`. -/
def dquoted (app : List Char) : List Char := '"' :: (app ++ ['"'])

/-- The single-quoted entry. -/
def squoted (app : List Char) : List Char := sq :: (app ++ [sq])

/-- Embedding of `add_to_installed_apps`: the registry file's text is passed
in and the written text is returned (identical to the input when no write
occurs), together with the boolean result. -/
def add_to_installed_apps (content app : List Char) : List Char × Bool :=
  if occurs (dquoted app) content || occurs (squoted app) content then
    (content, true)
  else
    match subnInst app content with
    | (newText, count) => if 0 < count then (newText, true) else (content, false)

/- ### Substring and counting lemmas -/

theorem begMatch_app_self : ∀ (pat t : List Char), begMatch pat (pat ++ t) = true := by
  intro pat
  induction pat with
  | nil => intro t; rfl
  | cons p ps ih => intro t; simp [begMatch, ih t]

theorem begMatch_ext : ∀ {pat s : List Char}, begMatch pat s = true →
    ∀ (t : List Char), begMatch pat (s ++ t) = true := by
  intro pat
  induction pat with
  | nil => intro s _ t; rfl
  | cons p ps ih =>
    intro s h t
    match s with
    | [] => simp [begMatch] at h
    | x :: xs =>
      simp only [begMatch, Bool.and_eq_true] at h
      simp [begMatch, h.1, ih h.2 t]

theorem occurs_app_left : ∀ {pat a : List Char}, occurs pat a = true →
    ∀ (b : List Char), occurs pat (a ++ b) = true := by
  intro pat a
  induction a with
  | nil => intro h; simp [occurs] at h
  | cons c rest ih =>
    intro h b
    simp only [occurs, Bool.or_eq_true] at h
    cases h with
    | inl h1 =>
      have h3 : begMatch pat ((c :: rest) ++ b) = true := begMatch_ext h1 b
      simp only [List.cons_append] at h3
      simp [occurs, List.append_eq, h3]
    | inr h2 =>
      have h3 := ih h2 b
      simp [occurs, List.append_eq, h3]

theorem occurs_cons_of {pat : List Char} {rest : List Char} (c : Char)
    (h : occurs pat rest = true) : occurs pat (c :: rest) = true := by
  simp [occurs, h]

theorem occurs_app_right : ∀ (a : List Char) {pat b : List Char},
    occurs pat b = true → occurs pat (a ++ b) = true := by
  intro a
  induction a with
  | nil => intro pat b h; simpa using h
  | cons c rest ih =>
    intro pat b h
    simpa using occurs_cons_of c (ih h)

theorem occurs_head {pat : List Char} (hne : pat ≠ []) (t : List Char) :
    occurs pat (pat ++ t) = true := by
  match pat with
  | [] => exact absurd rfl hne
  | p :: ps =>
    have := begMatch_app_self (p :: ps) t
    simp only [List.cons_append] at this ⊢
    simp [occurs, this]

theorem countSub_zero_of_not_occurs : ∀ {pat l : List Char},
    occurs pat l = false → countSub pat l = 0 := by
  intro pat l
  induction l with
  | nil => intro _; rfl
  | cons c rest ih =>
    intro h
    simp only [occurs, Bool.or_eq_false_iff] at h
    simp [countSub, h.1, ih h.2]

theorem begMatch_app_stop {c : Char} : ∀ {pat : List Char}, c ∉ pat →
    ∀ (l b : List Char), begMatch pat (l ++ c :: b) = begMatch pat l := by
  intro pat
  induction pat with
  | nil => intro _ l b; rfl
  | cons p ps ih =>
    intro hc l b
    have hpc : p ≠ c := fun h => hc (by simp [h])
    have hps : c ∉ ps := fun h => hc (by simp [h])
    match l with
    | [] =>
      simp only [List.nil_append, begMatch]
      have : (p = c) = False := by simp [hpc]
      simp [this]
    | x :: xs =>
      have h3 := ih hps xs b
      simp only [List.cons_append, begMatch, List.append_eq]
      rw [h3]

/-- Counting occurrences across a separator character that does not occur in
the pattern: no occurrence can contain the separator, so the counts on the
two sides add. -/
theorem countSub_split {pat : List Char} {c : Char} (hp : pat ≠ []) (hc : c ∉ pat) :
    ∀ (a b : List Char), countSub pat (a ++ c :: b) = countSub pat a + countSub pat b := by
  intro a
  induction a with
  | nil =>
    intro b
    have hfalse : begMatch pat (c :: b) = false := by
      match pat with
      | [] => exact absurd rfl hp
      | p :: ps =>
        have hpc : p ≠ c := fun h => hc (by simp [h])
        simp [begMatch, hpc]
    simp [countSub, hfalse]
  | cons x xs ih =>
    intro b
    have hbm : begMatch pat ((x :: xs) ++ c :: b) = begMatch pat (x :: xs) :=
      begMatch_app_stop hc (x :: xs) b
    simp only [List.cons_append] at hbm
    simp only [List.cons_append, countSub, List.append_eq]
    simp only [hbm, ih b]
    omega

/-- Occurrences of a pattern starting with `h` can only start at an `h`
character, so a run free of `h` contributes nothing. -/
theorem countSub_head_free {hd : Char} {pat' : List Char} :
    ∀ {u : List Char}, (∀ c ∈ u, c ≠ hd) →
      ∀ (r : List Char), countSub (hd :: pat') (u ++ r) = countSub (hd :: pat') r := by
  intro u
  induction u with
  | nil => intro _ r; rfl
  | cons c u' ih =>
    intro h r
    have hch : hd ≠ c := fun he => (h c (by simp)) he.symm
    have h3 := ih (fun x hx => h x (by simp [hx])) r
    simp only [List.cons_append, countSub, begMatch, List.append_eq]
    have hf : (hd = c) = False := by simp [hch]
    simp only [hf, decide_False, Bool.false_and, if_neg Bool.false_ne_true]
    rw [h3]
    omega

/- ### Scanner lemmas for the registry patcher -/

theorem eatLit_len : ∀ {p l r : List Char}, eatLit p l = some r → r.length + p.length = l.length := by
  intro p
  induction p with
  | nil =>
    intro l r h
    simp only [eatLit, Option.some.injEq] at h
    subst h
    simp
  | cons p ps ih =>
    intro l r h
    match l with
    | [] => simp [eatLit] at h
    | c :: cs =>
      simp only [eatLit] at h
      split at h
      · have := ih h
        simp only [List.length_cons]
        omega
      · simp at h

theorem matchInstalled_len : ∀ {l : List Char} {pre body after},
    matchInstalled l = some (pre, body, after) → after.length < l.length := by
  intro l pre body after h
  unfold matchInstalled at h
  split at h
  · simp at h
  next r1 he1 =>
    split at h
    · simp at h
    next c1 r3 he2 =>
      split at h
      · split at h
        · simp at h
        next r5 he3 =>
          split at h
          · simp at h
          next c2 r7 he4 =>
            split at h
            · split at h
              · simp at h
              next c3 r9 he5 =>
                split at h
                · split at h
                  · simp at h
                  next d after2 he6 =>
                    simp only [Option.some.injEq, Prod.mk.injEq] at h
                    obtain ⟨_, _, hafter⟩ := h
                    subst hafter
                    have l1 := eatLit_len he1
                    have l2 : (r1.dropWhile pyws).length ≤ r1.length := dropWhile_len pyws r1
                    rw [he2] at l2
                    have l3 := eatLit_len he3
                    have l2b : (r3.dropWhile pyws).length ≤ r3.length := dropWhile_len pyws r3
                    have l4 : (r5.dropWhile pyws).length ≤ r5.length := dropWhile_len pyws r5
                    rw [he4] at l4
                    have l5 : (r7.dropWhile pyws).length ≤ r7.length := dropWhile_len pyws r7
                    rw [he5] at l5
                    have l6 : (r9.dropWhile (fun c => !(c = ']'))).length ≤ r9.length :=
                      dropWhile_len _ r9
                    rw [he6] at l6
                    simp only [List.length_cons] at l2 l4 l5 l6
                    have l7 : (r3.dropWhile pyws).length = r5.length + litLS.length := by
                      omega
                    have hlit : litIA.length = 14 := by decide
                    have hls : litLS.length = 9 := by decide
                    omega
                · simp at h
            · simp at h
      · simp at h

theorem subnF_cons (app : List Char) (fuel : Nat) (c : Char) (rest : List Char) :
    subnF app (fuel + 1) (c :: rest) =
      match matchInstalled (c :: rest) with
      | some (pre, body, after) =>
        match subnF app fuel after with
        | (t, n) => (replOf pre body app ++ t, n + 1)
      | none =>
        match subnF app fuel rest with
        | (t, n) => (c :: t, n) := rfl

theorem subnF_some {c : Char} {rest pre body after : List Char}
    (app : List Char) (fuel : Nat)
    (h : matchInstalled (c :: rest) = some (pre, body, after)) :
    subnF app (fuel + 1) (c :: rest) =
      (replOf pre body app ++ (subnF app fuel after).1, (subnF app fuel after).2 + 1) := by
  rw [subnF_cons, h]

theorem subnF_nomatch {c : Char} {rest : List Char}
    (app : List Char) (fuel : Nat) (h : matchInstalled (c :: rest) = none) :
    subnF app (fuel + 1) (c :: rest) =
      (c :: (subnF app fuel rest).1, (subnF app fuel rest).2) := by
  rw [subnF_cons, h]

theorem subnF_irrel (app : List Char) :
    ∀ (n : Nat) {m : Nat} (l : List Char), l.length ≤ n → l.length ≤ m →
      subnF app n l = subnF app m l := by
  intro n
  induction n with
  | zero =>
    intro m l hn _
    have : l = [] := List.eq_nil_of_length_eq_zero (Nat.le_zero.mp hn)
    subst this
    cases m <;> rfl
  | succ k ih =>
    intro m l hn hm
    match l with
    | [] => cases m <;> rfl
    | c :: rest =>
      match m with
      | 0 => exact absurd hm (by simp)
      | m' + 1 =>
        cases h : matchInstalled (c :: rest) with
        | some p =>
          obtain ⟨pre, body, after⟩ := p
          have hlen := matchInstalled_len h
          simp only [List.length_cons] at hn hm hlen
          rw [subnF_some app k h, subnF_some app m' h,
            ih (m := m') after (by omega) (by omega)]
        | none =>
          simp only [List.length_cons] at hn hm
          rw [subnF_nomatch app k h, subnF_nomatch app m' h,
            ih (m := m') rest (by omega) (by omega)]

theorem subnF_count0 (app : List Char) :
    ∀ (fuel : Nat) (l : List Char), (subnF app fuel l).2 = 0 → (subnF app fuel l).1 = l := by
  intro fuel
  induction fuel with
  | zero =>
    intro l _
    cases l <;> rfl
  | succ k ih =>
    intro l h
    match l with
    | [] => rfl
    | c :: rest =>
      cases hm : matchInstalled (c :: rest) with
      | some p =>
        obtain ⟨pre, body, after⟩ := p
        rw [subnF_some app k hm] at h
        simp at h
      | none =>
        rw [subnF_nomatch app k hm] at h ⊢
        rw [ih rest h]

theorem indentQ_eq (app : List Char) :
    indentQ app = "    ".data ++ (dquoted app ++ [',']) := by
  simp [indentQ, dquoted]

theorem occurs_indentQ (app : List Char) : occurs (dquoted app) (indentQ app) = true := by
  rw [indentQ_eq]
  exact occurs_app_right _ (occurs_head (by simp [dquoted]) [','])

theorem occurs_newContent (e app : List Char) :
    occurs (dquoted app) (newContentOf e app) = true := by
  unfold newContentOf
  split
  · split
    · exact occurs_app_right e (occurs_cons_of '\n' (occurs_indentQ app))
    · exact occurs_app_right e (occurs_cons_of ',' (occurs_cons_of '\n' (occurs_indentQ app)))
  · split
    · exact occurs_app_right e (occurs_cons_of '\n' (occurs_indentQ app))
    · exact occurs_cons_of '\n' (occurs_app_left (occurs_indentQ app) _)

theorem occurs_repl (pre body app : List Char) :
    occurs (dquoted app) (replOf pre body app) = true :=
  occurs_app_right pre (occurs_app_left (occurs_newContent (pstrip body) app) _)

theorem subnF_pos_occurs (app : List Char) :
    ∀ (fuel : Nat) (l : List Char), 0 < (subnF app fuel l).2 →
      occurs (dquoted app) (subnF app fuel l).1 = true := by
  intro fuel
  induction fuel with
  | zero =>
    intro l h
    cases l <;> simp [subnF] at h
  | succ k ih =>
    intro l h
    match l with
    | [] => simp [subnF] at h
    | c :: rest =>
      cases hm : matchInstalled (c :: rest) with
      | some p =>
        obtain ⟨pre, body, after⟩ := p
        rw [subnF_some app k hm]
        exact occurs_app_left (occurs_repl pre body app) _
      | none =>
        rw [subnF_nomatch app k hm] at h ⊢
        exact occurs_cons_of c (ih rest h)

theorem add_already {content app : List Char}
    (h : (occurs (dquoted app) content || occurs (squoted app) content) = true) :
    add_to_installed_apps content app = (content, true) := by
  unfold add_to_installed_apps
  rw [if_pos h]

theorem add_insert {content app : List Char}
    (hd : occurs (dquoted app) content = false) (hs : occurs (squoted app) content = false)
    (hpos : 0 < (subnInst app content).2) :
    add_to_installed_apps content app = ((subnInst app content).1, true) := by
  unfold add_to_installed_apps
  rw [if_neg (by simp [hd, hs])]
  cases hsub : subnInst app content with
  | mk t n =>
    rw [hsub] at hpos
    simp only at hpos
    simp [if_pos hpos]

theorem add_notfound {content app : List Char}
    (hd : occurs (dquoted app) content = false) (hs : occurs (squoted app) content = false)
    (h0 : (subnInst app content).2 = 0) :
    add_to_installed_apps content app = (content, false) := by
  unfold add_to_installed_apps
  rw [if_neg (by simp [hd, hs])]
  cases hsub : subnInst app content with
  | mk t n =>
    rw [hsub] at h0
    simp only at h0
    subst h0
    simp

/-- After a successful first call the written text always contains the
double-quoted entry, so a second call is answered by the membership check. -/
theorem add_first_true {content app : List Char}
    (h : (add_to_installed_apps content app).2 = true) :
    occurs (dquoted app) (add_to_installed_apps content app).1 = true ∨
      occurs (squoted app) (add_to_installed_apps content app).1 = true := by
  by_cases hmem : (occurs (dquoted app) content || occurs (squoted app) content) = true
  · rw [add_already hmem]
    simpa using Bool.or_eq_true_iff.mp hmem
  · have hmem' := Bool.or_eq_false_iff.mp (Bool.not_eq_true _ |>.mp hmem)
    by_cases hpos : 0 < (subnInst app content).2
    · rw [add_insert hmem'.1 hmem'.2 hpos]
      exact Or.inl (subnF_pos_occurs app content.length content hpos)
    · rw [add_notfound hmem'.1 hmem'.2 (by omega)] at h
      simp at h

theorem add_idem_text (content app : List Char) :
    (add_to_installed_apps (add_to_installed_apps content app).1 app).1 =
      (add_to_installed_apps content app).1 := by
  by_cases h2 : (add_to_installed_apps content app).2 = true
  · have hocc := add_first_true h2
    have : (occurs (dquoted app) (add_to_installed_apps content app).1 ||
        occurs (squoted app) (add_to_installed_apps content app).1) = true := by
      rcases hocc with h | h <;> simp [h]
    rw [add_already this]
  · by_cases hmem : (occurs (dquoted app) content || occurs (squoted app) content) = true
    · rw [add_already hmem] at h2
      simp at h2
    · have hmem' := Bool.or_eq_false_iff.mp (Bool.not_eq_true _ |>.mp hmem)
      by_cases hpos : 0 < (subnInst app content).2
      · rw [add_insert hmem'.1 hmem'.2 hpos] at h2
        simp at h2
      · rw [add_notfound hmem'.1 hmem'.2 (by omega)]
        simp only
        rw [add_notfound hmem'.1 hmem'.2 (by omega)]

theorem add_second_true {content app : List Char}
    (h : (add_to_installed_apps content app).2 = true) :
    add_to_installed_apps (add_to_installed_apps content app).1 app =
      ((add_to_installed_apps content app).1, true) := by
  have hocc := add_first_true h
  apply add_already
  rcases hocc with h1 | h1 <;> simp [h1]

/-- C10.  The membership check of `add_to_installed_apps` scans the whole
file text: whenever the single- or double-quoted entry occurs anywhere in
the content (a comment, a docstring, another list), the function returns
True without modifying the text, so the entry is never inserted into the
target list. -/
theorem add_to_installed_apps_membership_global (content app : List Char)
    (h : occurs (dquoted app) content = true ∨ occurs (squoted app) content = true) :
    add_to_installed_apps content app = (content, true) := by
  apply add_already
  rcases h with h | h <;> simp [h]

/-- Registry text whose only mention of users is single-quoted inside a
comment; the target list itself is empty. -/
def contentMention : List Char :=
  "# see 'users' below\nINSTALLED_APPS: list[str] = [\n]\n".data

/-- C10 witness: with the entry mentioned only in a comment, the call
reports success and the text (hence the list) is unchanged. -/
theorem add_to_installed_apps_membership_global_witness :
    occurs (squoted "users".data) contentMention = true ∧
      add_to_installed_apps contentMention "users".data = (contentMention, true) :=
  ⟨by decide, add_to_installed_apps_membership_global contentMention "users".data
    (Or.inr (by decide))⟩

theorem eatLit_self_app : ∀ (p t : List Char), eatLit p (p ++ t) = some t := by
  intro p
  induction p with
  | nil => intro t; rfl
  | cons c cs ih => intro t; simp [eatLit, ih t]

/-- The regex matches at a canonically spaced list assignment whose body is
free of closing brackets, capturing exactly that opening, body and tail. -/
theorem matchInstalled_canon (body B : List Char) (hb : ∀ c ∈ body, c ≠ ']') :
    matchInstalled (canonIA ++ (body ++ ']' :: B)) = some (canonIA, body, B) := by
  have hsp := takeWhile_app (p := fun c => !(c = ']'))
    (u := body) (fun c hc => by simp [hb c hc]) (d := ']') B (by simp)
  have hl : canonIA ++ (body ++ ']' :: B) =
      litIA ++ (": list[str] = [".data ++ (body ++ ']' :: B)) := by
    rw [show canonIA = litIA ++ ": list[str] = [".data from rfl, List.append_assoc]
  rw [hl]
  unfold matchInstalled
  rw [eatLit_self_app]
  simp +decide [List.takeWhile, List.dropWhile, pyws, eatLit, hsp.1, hsp.2]

/-- `noMatchIn a t` : the pattern matches at no position inside `a` when the
text continues with `t`. -/
def noMatchIn : List Char → List Char → Bool
  | [], _ => true
  | c :: a, t => (matchInstalled (c :: (a ++ t))).isNone && noMatchIn a t

theorem subnF_skip (app : List Char) :
    ∀ (a : List Char) {t : List Char}, noMatchIn a t = true →
      ∀ (fuel : Nat), (a ++ t).length ≤ fuel →
        subnF app fuel (a ++ t) = (a ++ (subnInst app t).1, (subnInst app t).2) := by
  intro a
  induction a with
  | nil =>
    intro t _ fuel hf
    simp only [List.nil_append] at hf ⊢
    rw [subnF_irrel app fuel (m := t.length) t hf le_rfl]
    rfl
  | cons c a ih =>
    intro t hno fuel hf
    simp only [noMatchIn, Bool.and_eq_true, Option.isNone_iff_eq_none] at hno
    match fuel with
    | 0 => simp at hf
    | f + 1 =>
      have hstep : matchInstalled (c :: (a ++ t)) = none := hno.1
      simp only [List.cons_append, List.length_cons] at hf ⊢
      rw [subnF_nomatch app f hstep, ih hno.2 f (by omega)]

theorem subnF_at_match (app : List Char) {l pre body after : List Char}
    (hm : matchInstalled l = some (pre, body, after)) (fuel : Nat) (hf : l.length ≤ fuel) :
    subnF app fuel l =
      (replOf pre body app ++ (subnInst app after).1, (subnInst app after).2 + 1) := by
  match l with
  | [] =>
    have hnil : matchInstalled [] = none := by decide
    rw [hnil] at hm
    exact absurd hm (by simp)
  | c :: rest =>
    match fuel with
    | 0 => simp at hf
    | f + 1 =>
      have hlen := matchInstalled_len hm
      simp only [List.length_cons] at hf hlen
      rw [subnF_some app f hm,
        subnF_irrel app f (m := after.length) after (by omega) le_rfl]
      rfl

/-- The full `re.subn` on text consisting of a clean region, a canonically
spaced list assignment and a tail: the replacement happens exactly there,
counting one more than the matches of the tail. -/
theorem subnInst_structured (app A body B : List Char)
    (hA : noMatchIn A (canonIA ++ (body ++ ']' :: B)) = true)
    (hb : ∀ c ∈ body, c ≠ ']') :
    subnInst app (A ++ (canonIA ++ (body ++ ']' :: B))) =
      (A ++ (replOf canonIA body app ++ (subnInst app B).1), (subnInst app B).2 + 1) := by
  have h1 : subnInst app (A ++ (canonIA ++ (body ++ ']' :: B))) =
      (A ++ (subnInst app (canonIA ++ (body ++ ']' :: B))).1,
        (subnInst app (canonIA ++ (body ++ ']' :: B))).2) :=
    subnF_skip app A hA _ le_rfl
  have h2 : subnInst app (canonIA ++ (body ++ ']' :: B)) =
      (replOf canonIA body app ++ (subnInst app B).1, (subnInst app B).2 + 1) :=
    subnF_at_match app (matchInstalled_canon body B hb) _ le_rfl
  rw [h1, h2]

/- ### Strip and occurs-transfer lemmas -/

theorem occurs_false_right {pat a b : List Char} (h : occurs pat (a ++ b) = false) :
    occurs pat b = false := by
  by_contra hb
  rw [occurs_app_right a (by revert hb; cases occurs pat b <;> simp)] at h
  exact absurd h (by simp)

theorem occurs_false_left {pat a b : List Char} (h : occurs pat (a ++ b) = false) :
    occurs pat a = false := by
  by_contra ha
  rw [occurs_app_left (by revert ha; cases occurs pat a <;> simp) b] at h
  exact absurd h (by simp)

theorem dropWhile_ws_app : ∀ {u : List Char}, (∀ c ∈ u, pyws c = true) →
    ∀ (v : List Char), (u ++ v).dropWhile pyws = v.dropWhile pyws := by
  intro u
  induction u with
  | nil => intro _ v; rfl
  | cons c u ih =>
    intro h v
    have hc : pyws c = true := h c (by simp)
    simp only [List.cons_append, List.dropWhile, hc]
    exact ih (fun x hx => h x (by simp [hx])) v

theorem dropWhile_eq_self {p : Char → Bool} {l : List Char}
    (h : ∀ c, l.head? = some c → p c = false) : l.dropWhile p = l := by
  match l with
  | [] => rfl
  | c :: rest =>
    have hc : p c = false := h c rfl
    simp [List.dropWhile, hc]

theorem lstrip_decomp (l : List Char) : l = l.takeWhile pyws ++ lstrip l :=
  (List.takeWhile_append_dropWhile (p := pyws) (l := l)).symm

theorem rstrip_decomp (l : List Char) :
    l = rstrip l ++ (l.reverse.takeWhile pyws).reverse := by
  unfold rstrip
  conv_lhs => rw [show l = l.reverse.reverse from (List.reverse_reverse l).symm]
  rw [show l.reverse = l.reverse.takeWhile pyws ++ l.reverse.dropWhile pyws from
    (List.takeWhile_append_dropWhile (p := pyws) (l := l.reverse)).symm]
  rw [List.reverse_append]
  simp

theorem occurs_false_lstrip {pat l : List Char} (h : occurs pat l = false) :
    occurs pat (lstrip l) = false := by
  have := lstrip_decomp l
  rw [this] at h
  exact occurs_false_right h

theorem occurs_false_rstrip {pat l : List Char} (h : occurs pat l = false) :
    occurs pat (rstrip l) = false := by
  have := rstrip_decomp l
  rw [this] at h
  exact occurs_false_left h

theorem occurs_false_pstrip {pat l : List Char} (h : occurs pat l = false) :
    occurs pat (pstrip l) = false :=
  occurs_false_rstrip (occurs_false_lstrip h)

theorem dropWhile_all {p : Char → Bool} : ∀ {l : List Char},
    (∀ c ∈ l, p c = true) → l.dropWhile p = [] := by
  intro l
  induction l with
  | nil => intro _; rfl
  | cons c rest ih =>
    intro h
    have hc : p c = true := h c (by simp)
    simp only [List.dropWhile, hc]
    exact ih (fun x hx => h x (by simp [hx]))

theorem rstrip_app_ws {l : List Char} {wss : List Char}
    (hwss : ∀ c ∈ wss, pyws c = true) : rstrip (l ++ wss) = rstrip l := by
  unfold rstrip
  rw [List.reverse_append]
  rw [dropWhile_ws_app (fun c hc => hwss c (List.mem_reverse.mp hc))]

theorem rstrip_eq_self {l : List Char}
    (hl : ∀ c, l.getLast? = some c → pyws c = false) : rstrip l = l := by
  unfold rstrip
  rw [dropWhile_eq_self (fun c hc => hl c (by rwa [List.head?_reverse] at hc))]
  exact List.reverse_reverse l

/-- `strip` of whitespace, then comment text with non-whitespace endpoints,
then whitespace, is the comment text. -/
theorem pstrip_comment {cmt : List Char} (wsp wss : List Char)
    (hwsp : ∀ c ∈ wsp, pyws c = true) (hwss : ∀ c ∈ wss, pyws c = true)
    (hh : ∀ c, cmt.head? = some c → pyws c = false)
    (hl : ∀ c, cmt.getLast? = some c → pyws c = false) :
    pstrip (wsp ++ (cmt ++ wss)) = cmt := by
  unfold pstrip lstrip
  rw [dropWhile_ws_app hwsp]
  match cmt with
  | [] =>
    simp only [List.nil_append]
    rw [dropWhile_all hwss]
    rfl
  | ch :: ctail =>
    have hch : pyws ch = false := hh ch rfl
    rw [dropWhile_eq_self (p := pyws) (l := (ch :: ctail) ++ wss)
      (fun c hc => by simp only [List.cons_append, List.head?] at hc; cases hc; exact hch)]
    rw [rstrip_app_ws hwss]
    exact rstrip_eq_self hl

/- ### Counting the inserted entry -/

theorem countSub_cons (pat : List Char) (c : Char) (rest : List Char) :
    countSub pat (c :: rest) =
      (if begMatch pat (c :: rest) then 1 else 0) + countSub pat rest := rfl

theorem dquoted_eq (app : List Char) : dquoted app = '"' :: (app ++ ['"']) := rfl

theorem not_mem_dquoted {app : List Char} (happ : ∀ c ∈ app, wordChar c = true)
    {c : Char} (hq : c ≠ '"') (hw : wordChar c = false) : c ∉ dquoted app := by
  intro hmem
  rw [dquoted_eq] at hmem
  simp only [List.mem_cons, List.mem_append] at hmem
  rcases hmem with h | h | h | h
  · exact hq h
  · rw [happ c h] at hw
    exact absurd hw (by simp)
  · exact hq h
  · simp at h

theorem begMatch_dq_quote_sep {app : List Char} (happ : ∀ c ∈ app, wordChar c = true)
    (Z : List Char) : begMatch (dquoted app) ('"' :: ',' :: Z) = false := by
  rw [dquoted_eq]
  cases app with
  | nil => simp +decide [begMatch]
  | cons c0 app' =>
    have hc0 : c0 ≠ ',' := by
      intro h
      have := happ c0 (by simp)
      rw [h] at this
      exact absurd this (by decide)
    simp [begMatch, hc0]

theorem count_dq_block {app : List Char} (happ : ∀ c ∈ app, wordChar c = true)
    (Z : List Char) :
    countSub (dquoted app) (dquoted app ++ ',' :: Z) = 1 + countSub (dquoted app) Z := by
  have hfree : ∀ c ∈ app, c ≠ '"' := by
    intro c hc he
    have := happ c hc
    rw [he] at this
    exact absurd this (by decide)
  have hshape : dquoted app ++ ',' :: Z = '"' :: (app ++ ('"' :: ',' :: Z)) := by
    rw [dquoted_eq]
    simp
  have h1 : countSub (dquoted app) (app ++ ('"' :: ',' :: Z)) =
      countSub (dquoted app) ('"' :: ',' :: Z) := by
    rw [dquoted_eq]
    exact countSub_head_free hfree _
  have h2 : countSub (dquoted app) (',' :: Z) = countSub (dquoted app) Z := by
    rw [dquoted_eq]
    exact countSub_head_free (u := [',']) (by decide) Z
  rw [hshape, countSub_cons, ← hshape, begMatch_app_self, h1, countSub_cons,
    begMatch_dq_quote_sep happ Z, h2]
  simp

theorem count_indentQ_app {app : List Char} (happ : ∀ c ∈ app, wordChar c = true)
    (T : List Char) :
    countSub (dquoted app) (indentQ app ++ T) = 1 + countSub (dquoted app) T := by
  have hshape : indentQ app ++ T = "    ".data ++ (dquoted app ++ ',' :: T) := by
    rw [indentQ_eq]
    simp
  rw [hshape]
  rw [show countSub (dquoted app) ("    ".data ++ (dquoted app ++ ',' :: T)) =
      countSub (dquoted app) (dquoted app ++ ',' :: T) from by
    rw [dquoted_eq]
    exact countSub_head_free (u := "    ".data) (by decide) _]
  exact count_dq_block happ T

theorem count_nl_bracket {app : List Char} (B : List Char) :
    countSub (dquoted app) ('\n' :: ']' :: B) = countSub (dquoted app) B := by
  rw [dquoted_eq]
  exact countSub_head_free (u := ['\n', ']']) (by decide) B

/-- Counting the double-quoted entry across the replacement emitted for one
match: exactly one occurrence is added in front of the tail, whatever the
body shape. -/
theorem count_mid {app : List Char} (happ : ∀ c ∈ app, wordChar c = true)
    {e : List Char} (he : occurs (dquoted app) e = false) (B : List Char) :
    countSub (dquoted app) (newContentOf e app ++ '\n' :: ']' :: B) =
      1 + countSub (dquoted app) B := by
  have hdqne : dquoted app ≠ [] := by simp [dquoted_eq]
  have hnl : '\n' ∉ dquoted app :=
    not_mem_dquoted happ (by decide) (by decide)
  have hcm : ',' ∉ dquoted app :=
    not_mem_dquoted happ (by decide) (by decide)
  have he0 : countSub (dquoted app) e = 0 := countSub_zero_of_not_occurs he
  unfold newContentOf
  split
  · split
    · have hshape : (e ++ '\n' :: indentQ app) ++ '\n' :: ']' :: B =
          e ++ '\n' :: (indentQ app ++ '\n' :: ']' :: B) := by simp
      rw [hshape, countSub_split hdqne hnl, he0,
        count_indentQ_app happ _, count_nl_bracket]
      omega
    · have hshape : (e ++ ',' :: '\n' :: indentQ app) ++ '\n' :: ']' :: B =
          e ++ ',' :: ('\n' :: (indentQ app ++ '\n' :: ']' :: B)) := by simp
      rw [hshape, countSub_split hdqne hcm, he0]
      rw [show countSub (dquoted app) ('\n' :: (indentQ app ++ '\n' :: ']' :: B)) =
          countSub (dquoted app) (indentQ app ++ '\n' :: ']' :: B) from by
        rw [dquoted_eq]
        exact countSub_head_free (u := ['\n']) (by decide) _]
      rw [count_indentQ_app happ _, count_nl_bracket]
      omega
  · split
    · have hshape : (e ++ '\n' :: indentQ app) ++ '\n' :: ']' :: B =
          e ++ '\n' :: (indentQ app ++ '\n' :: ']' :: B) := by simp
      rw [hshape, countSub_split hdqne hnl, he0,
        count_indentQ_app happ _, count_nl_bracket]
      omega
    · have hshape : ('\n' :: (indentQ app ++ ['\n'])) ++ '\n' :: ']' :: B =
          '\n' :: (indentQ app ++ ('\n' :: '\n' :: ']' :: B)) := by simp
      rw [hshape]
      rw [show countSub (dquoted app) ('\n' :: (indentQ app ++ ('\n' :: '\n' :: ']' :: B))) =
          countSub (dquoted app) (indentQ app ++ ('\n' :: '\n' :: ']' :: B)) from by
        rw [dquoted_eq]
        exact countSub_head_free (u := ['\n']) (by decide) _]
      rw [count_indentQ_app happ _]
      rw [show countSub (dquoted app) ('\n' :: '\n' :: ']' :: B) =
          countSub (dquoted app) B from by
        rw [dquoted_eq]
        exact countSub_head_free (u := ['\n', '\n', ']']) (by decide) B]

/-- The head of `l` (if any) is not whitespace. -/
def headNoWs (l : List Char) : Bool :=
  match l with
  | [] => true
  | c :: _ => !pyws c

/-- The last character of `l` (if any) is not whitespace. -/
def lastNoWs (l : List Char) : Bool := headNoWs l.reverse

theorem headNoWs_spec {l : List Char} (h : headNoWs l = true) :
    ∀ c, l.head? = some c → pyws c = false := by
  intro c hc
  match l with
  | [] => simp at hc
  | x :: rest =>
    simp only [List.head?, Option.some.injEq] at hc
    subst hc
    simpa [headNoWs] using h

theorem lastNoWs_spec {l : List Char} (h : lastNoWs l = true) :
    ∀ c, l.getLast? = some c → pyws c = false := by
  intro c hc
  have := headNoWs_spec (l := l.reverse) h c
  rw [List.head?_reverse] at this
  exact this hc

theorem newContent_comment {cmt app : List Char} (hne : cmt ≠ [])
    (hnc : endsWith [','] cmt = false) (hnh : endsWith ['#'] cmt = false)
    (hlast : ∀ c, cmt.getLast? = some c → pyws c = false) :
    newContentOf cmt app = cmt ++ ',' :: '\n' :: indentQ app := by
  have hie : cmt.isEmpty = false := by
    cases cmt with
    | nil => exact absurd rfl hne
    | cons c rest => rfl
  unfold newContentOf
  rw [if_pos (by simp [hie, hnc]), rstrip_eq_self hlast, if_neg (by simp [hnh, hnc])]

/-- C6 (amended).  On a bracketed body holding only a comment line (with
whitespace around it), `add_to_installed_apps` inserts the new quoted entry
as a new element, but it strips the body and re-attaches the comment
directly after the opening bracket and, because the comment ends with
neither a comma nor a hash, appends a comma to the comment text — the
comment line's text is altered, contrary to the claim. -/
theorem add_to_installed_apps_comment (A B cmt app wsp wss : List Char)
    (hwsp : wsp.all pyws = true) (hwss : wss.all pyws = true)
    (hhead : headNoWs cmt = true) (hlast : lastNoWs cmt = true)
    (hne : cmt ≠ [])
    (hnc : endsWith [','] cmt = false) (hnh : endsWith ['#'] cmt = false)
    (hbr : (wsp ++ (cmt ++ wss)).all (fun c => !(c = ']')) = true)
    (hA : noMatchIn A (canonIA ++ ((wsp ++ (cmt ++ wss)) ++ ']' :: B)) = true)
    (hB0 : (subnInst app B).2 = 0)
    (hnd : occurs (dquoted app)
      (A ++ (canonIA ++ ((wsp ++ (cmt ++ wss)) ++ ']' :: B))) = false)
    (hns : occurs (squoted app)
      (A ++ (canonIA ++ ((wsp ++ (cmt ++ wss)) ++ ']' :: B))) = false) :
    add_to_installed_apps (A ++ (canonIA ++ ((wsp ++ (cmt ++ wss)) ++ ']' :: B))) app =
      (A ++ (canonIA ++ (cmt ++ ',' :: '\n' :: (indentQ app ++ '\n' :: ']' :: B))), true) := by
  have hbr' : ∀ c ∈ wsp ++ (cmt ++ wss), c ≠ ']' := by
    intro c hc
    have := List.all_eq_true.mp hbr c hc
    simpa using this
  have hsub := subnInst_structured app A (wsp ++ (cmt ++ wss)) B hA hbr'
  have hB1 : (subnInst app B).1 = B := subnF_count0 app B.length B hB0
  have hpos : 0 < (subnInst app (A ++ (canonIA ++ ((wsp ++ (cmt ++ wss)) ++ ']' :: B)))).2 := by
    rw [hsub]
    simp
  have hstrip : pstrip (wsp ++ (cmt ++ wss)) = cmt :=
    pstrip_comment wsp wss
      (fun c hc => List.all_eq_true.mp hwsp c hc)
      (fun c hc => List.all_eq_true.mp hwss c hc)
      (headNoWs_spec hhead) (lastNoWs_spec hlast)
  have hrepl : replOf canonIA (wsp ++ (cmt ++ wss)) app =
      canonIA ++ ((cmt ++ ',' :: '\n' :: indentQ app) ++ '\n' :: [']']) := by
    unfold replOf
    rw [hstrip, newContent_comment hne hnc hnh (lastNoWs_spec hlast)]
  rw [add_insert hnd hns hpos, hsub]
  simp only [hB1, hrepl]
  simp [List.append_assoc]

/-- The registry text of the spec's comment scenario: the list body holds
only the comment line from the generated template. -/
def cRegistryC6 : List Char :=
  "INSTALLED_APPS: list[str] = [\n    # Add your apps here\n]\n".data

/-- C6 counterexample: after inserting users into a body holding only a
comment, the comment line's text has gained a comma (and lost its line
ending), refuting the claim that the comment is left undisturbed. -/
theorem add_to_installed_apps_comment_counterexample :
    occurs "# Add your apps here\n".data ((add_to_installed_apps cRegistryC6 "users".data).1)
        = false ∧
      occurs "# Add your apps here,".data ((add_to_installed_apps cRegistryC6 "users".data).1)
        = true ∧
      occurs "# Add your apps here\n".data cRegistryC6 = true := by
  decide

/-- C6 witness: the amended theorem evaluated on the comment scenario. -/
theorem add_to_installed_apps_comment_witness :
    add_to_installed_apps
        ([] ++ (canonIA ++ (("\n    ".data ++ ("# Add your apps here".data ++ "\n".data)) ++
          ']' :: "\n".data))) "users".data =
      ([] ++ (canonIA ++ ("# Add your apps here".data ++ ',' :: '\n' ::
        (indentQ "users".data ++ '\n' :: ']' :: "\n".data))), true) :=
  add_to_installed_apps_comment [] "\n".data "# Add your apps here".data "users".data
    "\n    ".data "\n".data (by decide) (by decide) (by decide) (by decide) (by decide)
    (by decide) (by decide) (by decide) (by decide) (by decide) (by decide) (by decide)

def canonInit : List Char := "INSTALLED_APPS: list[str] = ".data

theorem count_insert_once (A B body app : List Char)
    (happ : app.all wordChar = true)
    (hbr : body.all (fun c => !(c = ']')) = true)
    (hA : noMatchIn A (canonIA ++ (body ++ ']' :: B)) = true)
    (hB0 : (subnInst app B).2 = 0)
    (hnd : occurs (dquoted app) (A ++ (canonIA ++ (body ++ ']' :: B))) = false)
    (hns : occurs (squoted app) (A ++ (canonIA ++ (body ++ ']' :: B))) = false) :
    countSub (dquoted app)
      ((add_to_installed_apps (A ++ (canonIA ++ (body ++ ']' :: B))) app).1) = 1 := by
  have happ' : ∀ c ∈ app, wordChar c = true := fun c hc => List.all_eq_true.mp happ c hc
  have hbr' : ∀ c ∈ body, c ≠ ']' := by
    intro c hc
    have := List.all_eq_true.mp hbr c hc
    simpa using this
  have hsub := subnInst_structured app A body B hA hbr'
  have hB1 : (subnInst app B).1 = B := subnF_count0 app B.length B hB0
  have hpos : 0 < (subnInst app (A ++ (canonIA ++ (body ++ ']' :: B)))).2 := by
    rw [hsub]
    simp
  have hdqne : dquoted app ≠ [] := by simp [dquoted_eq]
  have hbrk : '[' ∉ dquoted app := not_mem_dquoted happ' (by decide) (by decide)
  have hcontent : A ++ (canonIA ++ (body ++ ']' :: B)) =
      (A ++ canonInit) ++ '[' :: (body ++ ']' :: B) := by
    rw [show canonIA = canonInit ++ ['['] from rfl]
    simp [List.append_assoc]
  have hoccA : occurs (dquoted app) (A ++ canonInit) = false := by
    rw [hcontent] at hnd
    exact occurs_false_left hnd
  have hoccBody : occurs (dquoted app) (body ++ ']' :: B) = false :=
    occurs_false_right (occurs_false_right hnd)
  have hoccStrip : occurs (dquoted app) (pstrip body) = false :=
    occurs_false_pstrip (occurs_false_left hoccBody)
  have hoccB : occurs (dquoted app) B = false := by
    have h1 : occurs (dquoted app) (']' :: B) = false := occurs_false_right hoccBody
    exact occurs_false_right (a := [']']) (by simpa using h1)
  have hshape : A ++ (replOf canonIA body app ++ B) =
      (A ++ canonInit) ++ '[' :: (newContentOf (pstrip body) app ++ '\n' :: ']' :: B) := by
    unfold replOf
    rw [show canonIA = canonInit ++ ['['] from rfl]
    simp [List.append_assoc]
  rw [add_insert hnd hns hpos]
  simp only [hsub, hB1]
  rw [hshape, countSub_split hdqne hbrk, countSub_zero_of_not_occurs hoccA,
    count_mid happ' hoccStrip B, countSub_zero_of_not_occurs hoccB]

/-- C2 (amended).  Invoking `add_to_installed_apps` twice with the same entry
is idempotent on the text (first conjunct, for every text and entry), and a
second call after a successful first call is answered by the membership
check: it changes nothing and reports True (second conjunct).  The claim's
"the quoted entry occurs exactly once" holds when the entry (a word-character
name) is not already quoted anywhere in the original text and the text
consists of one canonically spaced list assignment with a bracket-free body
between a region and a tail free of further matches (third conjunct); it
fails for texts that already quote the entry elsewhere (see the
counterexample). -/
theorem add_to_installed_apps_idempotent :
    (∀ content app : List Char,
        (add_to_installed_apps (add_to_installed_apps content app).1 app).1 =
          (add_to_installed_apps content app).1)
    ∧ (∀ content app : List Char, (add_to_installed_apps content app).2 = true →
        add_to_installed_apps (add_to_installed_apps content app).1 app =
          ((add_to_installed_apps content app).1, true))
    ∧ (∀ A B body app : List Char, app.all wordChar = true →
        body.all (fun c => !(c = ']')) = true →
        noMatchIn A (canonIA ++ (body ++ ']' :: B)) = true →
        (subnInst app B).2 = 0 →
        occurs (dquoted app) (A ++ (canonIA ++ (body ++ ']' :: B))) = false →
        occurs (squoted app) (A ++ (canonIA ++ (body ++ ']' :: B))) = false →
        countSub (dquoted app)
          ((add_to_installed_apps (A ++ (canonIA ++ (body ++ ']' :: B))) app).1) = 1) :=
  ⟨add_idem_text, fun _ _ h => add_second_true h, count_insert_once⟩

/-- A file that already mentions users, double-quoted, twice outside the
list. -/
def cTwice : List Char :=
  "X = \"users\"\nY = \"users\"\nINSTALLED_APPS: list[str] = [\n]\n".data

/-- C2 counterexample: invoking twice on a text that already quotes the
entry elsewhere leaves the count at 2, refuting "the quoted entry occurs
exactly once in the result" as universally stated (idempotence itself
holds: both calls return the text unchanged with True). -/
theorem add_to_installed_apps_idempotent_counterexample :
    countSub (dquoted "users".data)
        ((add_to_installed_apps (add_to_installed_apps cTwice "users".data).1
          "users".data).1) = 2 ∧
      add_to_installed_apps cTwice "users".data = (cTwice, true) := by
  decide

/-- C2 witness: on the canonical empty-bodied registry, adding users leaves
exactly one double-quoted occurrence, and the second call reports True
without changing the text. -/
theorem add_to_installed_apps_idempotent_witness :
    countSub (dquoted "users".data)
        ((add_to_installed_apps ([] ++ (canonIA ++ ("\n".data ++ ']' :: "\n".data)))
          "users".data).1) = 1 ∧
      (add_to_installed_apps "INSTALLED_APPS: list[str] = [\n]\n".data "users".data).2
        = true := by
  constructor
  · exact add_to_installed_apps_idempotent.2.2 [] "\n".data "\n".data "users".data
      (by decide) (by decide) (by decide) (by decide) (by decide) (by decide)
  · decide

/- ### The env patcher (`update_env_file` in adddb.py)

The text-level behaviour: if the substring DATABASE_ENGINE= occurs anywhere,
`re.sub` replaces every occurrence's following maximal run of word
characters (the regex `DATABASE_ENGINE=\w*`) with the engine name; otherwise
the line is appended with an unconditional leading and trailing newline.
When the engine is sqlite and DATABASE_URL= occurs in the updated text,
`re.sub` on `DATABASE_URL=.*` additionally replaces the remainder of each
such line with the example URL.  Reading the file (or `.env.example`) and
writing it back are external I/O; the embedding is the content
transformation. -/

/-- `noStarts pat a t` : no prefix match of `pat` begins at any position of
`a` when the text continues with `t`. -/
def noStarts (pat : List Char) : List Char → List Char → Bool
  | [], _ => true
  | c :: a, t => !(begMatch pat (c :: (a ++ t))) && noStarts pat a t

def keyE : List Char := "DATABASE_ENGINE=".data

def keyU : List Char := "DATABASE_URL=".data

/-- Scanner for `re.sub(r"DATABASE_ENGINE=\w*", "DATABASE_ENGINE=" + engine, l)`. -/
def engSubF (engine : List Char) : Nat → List Char → List Char
  | _, [] => []
  | 0, l => l
  | fuel + 1, c :: rest =>
    if begMatch keyE (c :: rest) then
      keyE ++ (engine ++
        engSubF engine fuel (((c :: rest).drop keyE.length).dropWhile wordChar))
    else c :: engSubF engine fuel rest

def engineSub (engine l : List Char) : List Char := engSubF engine l.length l

/-- Scanner for `re.sub(r"DATABASE_URL=.*", "DATABASE_URL=" + url, l)`; the
dot does not match newlines. -/
def urlSubF (url : List Char) : Nat → List Char → List Char
  | _, [] => []
  | 0, l => l
  | fuel + 1, c :: rest =>
    if begMatch keyU (c :: rest) then
      keyU ++ (url ++
        urlSubF url fuel (((c :: rest).drop keyU.length).dropWhile (fun c => !(c = '\n'))))
    else c :: urlSubF url fuel rest

def urlSub (url l : List Char) : List Char := urlSubF url l.length l

/-- Embedding of the text transformation of `update_env_file(env_path,
engine, url_example)`.  The function always reports success; the embedding
returns the written text. -/
def update_env_file (content engine url : List Char) : List Char :=
  if occurs keyE content then
    if engine = "sqlite".data ∧ occurs keyU (engineSub engine content) then
      urlSub url (engineSub engine content)
    else engineSub engine content
  else
    if engine = "sqlite".data ∧
        occurs keyU (content ++ '\n' :: (keyE ++ (engine ++ ['\n']))) then
      urlSub url (content ++ '\n' :: (keyE ++ (engine ++ ['\n'])))
    else content ++ '\n' :: (keyE ++ (engine ++ ['\n']))

theorem begMatch_len : ∀ {pat l : List Char}, begMatch pat l = true → pat.length ≤ l.length := by
  intro pat
  induction pat with
  | nil => intro l _; simp
  | cons p ps ih =>
    intro l h
    match l with
    | [] => simp [begMatch] at h
    | c :: cs =>
      simp only [begMatch, Bool.and_eq_true] at h
      have := ih h.2
      simp only [List.length_cons]
      omega

theorem engSubF_irrel (engine : List Char) :
    ∀ (n : Nat) {m : Nat} (l : List Char), l.length ≤ n → l.length ≤ m →
      engSubF engine n l = engSubF engine m l := by
  intro n
  induction n with
  | zero =>
    intro m l hn _
    have : l = [] := List.eq_nil_of_length_eq_zero (Nat.le_zero.mp hn)
    subst this
    cases m <;> rfl
  | succ k ih =>
    intro m l hn hm
    match l with
    | [] => cases m <;> rfl
    | c :: rest =>
      match m with
      | 0 => exact absurd hm (by simp)
      | m' + 1 =>
        by_cases hb : begMatch keyE (c :: rest) = true
        · have hk : keyE.length ≤ (c :: rest).length := begMatch_len hb
          have hd : (((c :: rest).drop keyE.length).dropWhile wordChar).length ≤
              (c :: rest).length - keyE.length := by
            have h1 := dropWhile_len wordChar ((c :: rest).drop keyE.length)
            have h2 : ((c :: rest).drop keyE.length).length =
                (c :: rest).length - keyE.length := List.length_drop _ _
            omega
          have hke : keyE.length = 16 := by decide
          simp only [List.length_cons] at hn hm hk hd
          show (if begMatch keyE (c :: rest) then _ else _) =
            (if begMatch keyE (c :: rest) then _ else _)
          rw [if_pos hb, if_pos hb,
            ih (m := m') (((c :: rest).drop keyE.length).dropWhile wordChar)
              (by omega) (by omega)]
        · have hb' : begMatch keyE (c :: rest) = false := by
            revert hb; cases begMatch keyE (c :: rest) <;> simp
          simp only [List.length_cons] at hn hm
          show (if begMatch keyE (c :: rest) then _ else _) =
            (if begMatch keyE (c :: rest) then _ else _)
          rw [if_neg (by simp [hb']), if_neg (by simp [hb']),
            ih (m := m') rest (by omega) (by omega)]

theorem engSubF_id (engine : List Char) :
    ∀ (fuel : Nat) (l : List Char), occurs keyE l = false →
      engSubF engine fuel l = l := by
  intro fuel
  induction fuel with
  | zero => intro l _; cases l <;> rfl
  | succ k ih =>
    intro l h
    match l with
    | [] => rfl
    | c :: rest =>
      simp only [occurs, Bool.or_eq_false_iff] at h
      show (if begMatch keyE (c :: rest) then _ else _) = _
      rw [if_neg (by simp [h.1]), ih rest h.2]

theorem noStarts_skip_engSub (engine : List Char) :
    ∀ (a : List Char) {t : List Char}, noStarts keyE a t = true →
      ∀ (fuel : Nat), (a ++ t).length ≤ fuel →
        engSubF engine fuel (a ++ t) = a ++ engineSub engine t := by
  intro a
  induction a with
  | nil =>
    intro t _ fuel hf
    simp only [List.nil_append] at hf ⊢
    exact engSubF_irrel engine fuel t hf le_rfl
  | cons c a ih =>
    intro t hno fuel hf
    simp only [noStarts, Bool.and_eq_true, Bool.not_eq_true'] at hno
    match fuel with
    | 0 => simp at hf
    | f + 1 =>
      simp only [List.cons_append, List.length_cons] at hf ⊢
      show (if begMatch keyE (c :: (a ++ t)) then _ else _) = _
      rw [if_neg (by simp [hno.1]), ih hno.2 f (by omega)]

/-- The head of `l` (if any) is not a word character. -/
def headNoWord (l : List Char) : Bool :=
  match l with
  | [] => true
  | c :: _ => !wordChar c

theorem dropWhile_word_app {w b : List Char} (hw : w.all wordChar = true)
    (hhb : headNoWord b = true) : (w ++ b).dropWhile wordChar = b := by
  have hw' : ∀ c ∈ w, wordChar c = true := fun c hc => List.all_eq_true.mp hw c hc
  match b with
  | [] =>
    simp only [List.append_nil]
    exact dropWhile_all hw'
  | hd :: b' =>
    have hhd : wordChar hd = false := by
      simpa [headNoWord] using hhb
    exact (takeWhile_app hw' b' hhd).2

theorem engSubF_at (engine : List Char) {w b : List Char} (hw : w.all wordChar = true)
    (hhb : headNoWord b = true) (hnb : occurs keyE b = false)
    (fuel : Nat) (hf : (keyE ++ (w ++ b)).length ≤ fuel) :
    engSubF engine fuel (keyE ++ (w ++ b)) = keyE ++ (engine ++ b) := by
  match fuel with
  | 0 =>
    rw [show keyE = 'D' :: "ATABASE_ENGINE=".data from rfl] at hf
    simp at hf
  | f + 1 =>
    have hexp : keyE ++ (w ++ b) = 'D' :: ("ATABASE_ENGINE=".data ++ (w ++ b)) := rfl
    rw [hexp]
    show (if begMatch keyE ('D' :: ("ATABASE_ENGINE=".data ++ (w ++ b))) then
        keyE ++ (engine ++ engSubF engine f
          ((('D' :: ("ATABASE_ENGINE=".data ++ (w ++ b))).drop keyE.length).dropWhile wordChar))
      else 'D' :: engSubF engine f ("ATABASE_ENGINE=".data ++ (w ++ b))) = _
    rw [← hexp, if_pos (begMatch_app_self keyE (w ++ b)), List.drop_left,
      dropWhile_word_app hw hhb, engSubF_id engine f b hnb]

theorem engineSub_at (engine : List Char) {a w b : List Char}
    (hna : noStarts keyE a (keyE ++ (w ++ b)) = true)
    (hw : w.all wordChar = true) (hhb : headNoWord b = true)
    (hnb : occurs keyE b = false) :
    engineSub engine (a ++ (keyE ++ (w ++ b))) = a ++ (keyE ++ (engine ++ b)) := by
  unfold engineSub
  rw [noStarts_skip_engSub engine a hna _ le_rfl]
  unfold engineSub
  rw [engSubF_at engine hw hhb hnb _ le_rfl]

/-- C7 (amended).  When the text does not contain the substring
DATABASE_ENGINE=, `update_env_file` appends newline, KEY=engine, newline
unconditionally — so appending to empty text produces a leading blank line,
contrary to the claim (first conjunct; see the counterexample).  When the
text is a region free of key starts, then the key, a word-character value
and a tail starting with a non-word character, the value's word run is
replaced by the engine name and everything else is untouched (second
conjunct).  Both parts are stated away from the sqlite special case, which
additionally rewrites DATABASE_URL lines. -/
theorem update_env_file_spec :
    (∀ content engine url : List Char, occurs keyE content = false →
        engine ≠ "sqlite".data →
        update_env_file content engine url = content ++ '\n' :: (keyE ++ (engine ++ ['\n'])))
    ∧ (∀ a w b engine url : List Char,
        noStarts keyE a (keyE ++ (w ++ b)) = true →
        w.all wordChar = true → headNoWord b = true → occurs keyE b = false →
        engine ≠ "sqlite".data →
        update_env_file (a ++ (keyE ++ (w ++ b))) engine url =
          a ++ (keyE ++ (engine ++ b))) := by
  constructor
  · intro content engine url hocc heng
    unfold update_env_file
    rw [if_neg (by simp [hocc]), if_neg (by intro h; exact heng h.1)]
  · intro a w b engine url hna hw hhb hnb heng
    have hocc : occurs keyE (a ++ (keyE ++ (w ++ b))) = true :=
      occurs_app_right a (occurs_head (by decide) (w ++ b))
    unfold update_env_file
    rw [if_pos hocc, if_neg (by intro h; exact heng h.1)]
    exact engineSub_at engine hna hw hhb hnb

/-- C7 counterexample: appending to empty text produces a leading newline
(a blank first line), refuting the claim that no preceding newline is added
when the text is empty. -/
theorem update_env_file_counterexample :
    update_env_file [] "postgres".data "postgresql://u".data =
        "\nDATABASE_ENGINE=postgres\n".data ∧
      update_env_file [] "postgres".data "postgresql://u".data ≠
        "DATABASE_ENGINE=postgres\n".data := by
  decide

/-- C7 witness: the amended theorem evaluated on a two-line env file whose
engine value is replaced in place, and on a keyless file that receives the
appended line. -/
theorem update_env_file_spec_witness :
    update_env_file ("X=1\n".data ++ (keyE ++ ("sqlite".data ++ "\nOTHER=2\n".data)))
        "postgres".data "u".data =
      "X=1\n".data ++ (keyE ++ ("postgres".data ++ "\nOTHER=2\n".data)) ∧
    update_env_file "SECRET=x\n".data "postgres".data "u".data =
      "SECRET=x\n".data ++ '\n' :: (keyE ++ ("postgres".data ++ ['\n'])) :=
  ⟨update_env_file_spec.2 "X=1\n".data "sqlite".data "\nOTHER=2\n".data "postgres".data
      "u".data (by decide) (by decide) (by decide) (by decide) (by decide),
    update_env_file_spec.1 "SECRET=x\n".data "postgres".data "u".data (by decide) (by decide)⟩

/- ### The config patcher (`update_config_engine` in adddb.py)

The regex is "DATABASE_ENGINE ws* : ws* (lazy anything) = ws* quote (word+)
quote" with the replacement re-emitting group 1 followed by the double-quoted
engine.  Without DOTALL the lazy dot cannot cross newlines, while the
whitespace classes can; the scanner below implements the backtracking
search for the earliest equals sign whose tail completes the match, tracking
whether the scan is still inside the leading whitespace run (where a newline
is allowed).  The function writes only when the substitution changed the
text and reports that comparison. -/

def isQuote (c : Char) : Bool := c = '"' || c = sq

/-- Match `\s*["\']\w+["\']` at the head; returns the whitespace run (part of
group 1) and the input after the closing quote. -/
def tailSplit (l : List Char) : Option (List Char × List Char) :=
  match l.dropWhile pyws with
  | [] => none
  | q1 :: r =>
    if isQuote q1 then
      match r.dropWhile wordChar with
      | q2 :: rest2 =>
        if isQuote q2 && !(r.takeWhile wordChar).isEmpty then
          some (l.takeWhile pyws, rest2)
        else none
      | [] => none
    else none

/-- Search for the earliest equals sign completing `\s*.*?=\s*["\']\w+["\']`:
the flag records whether only whitespace has been consumed so far (newlines
are only allowed there).  Returns the consumed characters from the current
position through the whitespace after the equals sign, and the rest after
the closing quote. -/
def findEqSplit : Bool → List Char → Option (List Char × List Char)
  | _, [] => none
  | inWs, c :: rest =>
    if c = '=' then
      match tailSplit rest with
      | some (w, rest2) => some ('=' :: w, rest2)
      | none =>
        match findEqSplit false rest with
        | some (mid, r2) => some (c :: mid, r2)
        | none => none
    else
      if (inWs && pyws c) || !(c = '\n') then
        match findEqSplit (inWs && pyws c) rest with
        | some (mid, r2) => some (c :: mid, r2)
        | none => none
      else none

def litDE : List Char := "DATABASE_ENGINE".data

/-- Match the config pattern at the head of the input; on success returns
group 1 and the input after the match. -/
def matchConfigAt (l : List Char) : Option (List Char × List Char) :=
  match eatLit litDE l with
  | none => none
  | some r1 =>
    match r1.dropWhile pyws with
    | c :: r3 =>
      if c = ':' then
        match findEqSplit true r3 with
        | some (mid, rest2) => some (litDE ++ (r1.takeWhile pyws ++ ':' :: mid), rest2)
        | none => none
      else none
    | [] => none

/-- Scanner for the config `re.sub`: each match is replaced by group 1
followed by the double-quoted engine. -/
def cfgSubF (engine : List Char) : Nat → List Char → List Char
  | _, [] => []
  | 0, l => l
  | fuel + 1, c :: rest =>
    match matchConfigAt (c :: rest) with
    | some (g1, after) => g1 ++ '"' :: (engine ++ '"' :: cfgSubF engine fuel after)
    | none => c :: cfgSubF engine fuel rest

def cfgSub (engine l : List Char) : List Char := cfgSubF engine l.length l

/-- Does the config pattern match anywhere in the text? -/
def configMatches : List Char → Bool
  | [] => false
  | c :: rest => (matchConfigAt (c :: rest)).isSome || configMatches rest

/-- Embedding of `update_config_engine`: the config file's text is passed in
and the written text is returned (identical to the input when no write
occurs), with the boolean result. -/
def update_config_engine (content engine : List Char) : List Char × Bool :=
  if cfgSub engine content = content then (content, false)
  else (cfgSub engine content, true)

theorem cfgSubF_id (engine : List Char) :
    ∀ (fuel : Nat) (l : List Char), configMatches l = false →
      cfgSubF engine fuel l = l := by
  intro fuel
  induction fuel with
  | zero => intro l _; cases l <;> rfl
  | succ k ih =>
    intro l h
    match l with
    | [] => rfl
    | c :: rest =>
      simp only [configMatches, Bool.or_eq_false_iff] at h
      cases hm : matchConfigAt (c :: rest) with
      | some p =>
        rw [hm] at h
        simp at h
      | none =>
        show (match matchConfigAt (c :: rest) with
          | some (g1, after) => g1 ++ '"' :: (engine ++ '"' :: cfgSubF engine k after)
          | none => c :: cfgSubF engine k rest) = c :: rest
        rw [hm, ih rest h.2]

/-- C8 (amended).  When the target pattern is absent the patchers return
changed=false without exception and leave the text unchanged (no write):
for `add_to_installed_apps` this additionally requires that the entry is not
already quoted anywhere in the text — if it is, the function returns True
(already registered), still without modifying the text (see the
counterexample); for `update_config_engine` it holds unconditionally. -/
theorem patchers_notfound :
    (∀ content app : List Char,
        occurs (dquoted app) content = false → occurs (squoted app) content = false →
        (subnInst app content).2 = 0 →
        add_to_installed_apps content app = (content, false))
    ∧ (∀ content engine : List Char, configMatches content = false →
        update_config_engine content engine = (content, false)) := by
  constructor
  · intro content app hd hs h0
    exact add_notfound hd hs h0
  · intro content engine h
    unfold update_config_engine
    rw [if_pos]
    unfold cfgSub
    exact cfgSubF_id engine content.length content h

/-- A file with no list assignment that mentions the entry single-quoted. -/
def cNoList : List Char := "# mentions 'users' only\n".data

/-- C8 counterexample: with the pattern absent but the entry quoted in a
comment, `add_to_installed_apps` returns True, not the claimed
changed=false (the text is still unchanged). -/
theorem patchers_notfound_counterexample :
    (subnInst "users".data cNoList).2 = 0 ∧
      add_to_installed_apps cNoList "users".data = (cNoList, true) := by
  decide

/-- C8 witness: both patchers evaluated on texts without their target
pattern report false and return the text unchanged. -/
theorem patchers_notfound_witness :
    add_to_installed_apps "OTHER = [1]\n".data "users".data =
        ("OTHER = [1]\n".data, false) ∧
      update_config_engine "OTHER_SETTING = 'value'\n".data "postgres".data =
        ("OTHER_SETTING = 'value'\n".data, false) :=
  ⟨patchers_notfound.1 "OTHER = [1]\n".data "users".data (by decide) (by decide) (by decide),
    patchers_notfound.2 "OTHER_SETTING = 'value'\n".data "postgres".data (by decide)⟩

end FastapiNew
